import Mathlib

/-
Verification of the data-normalization, filtering and chart-projection core of
the Data_Vizualisation repository (src/utils/dataProcessor.ts and the chartData
projection of src/components/ChartViewer.tsx).

Modelling conventions:
* JSON-like JavaScript values are embedded as the inductive type `JValue`;
  JavaScript numbers are modelled as exact rationals (ℚ).
* JavaScript `undefined` (absent property) is modelled as `Option.none` at
  property-access sites (`jsGet`).
* Property access on `null` throws a TypeError in JavaScript; the only place
  the source can perform such an access is `parseMatlabJson` reading
  `jsonData.time` on a `null` root, so `parseMatlabJson` returns an `Option`,
  with `none` modelling the thrown error.
* JavaScript `Record` objects (the flat signal map, chart rows) are modelled as
  association lists in insertion order; keys are unique in every run the
  program performs (JSON object keys are unique, signal ids are unique), so no
  overwrite semantics is needed.
* `Math.sqrt` has no exact rational counterpart, so the statistics record
  stores the variance (`stdDevSq`, the square of the source's `stdDev`)
  instead of the standard deviation itself; `stdDev = 0` iff `stdDevSq = 0`,
  and no other fact about `stdDev` is at stake.
-/

set_option maxRecDepth 8000

namespace DataViz

/-- JSON-like JavaScript values (the `any` inputs of the source). -/
inductive JValue : Type where
  | num (q : ℚ)
  | str (s : String)
  | bool (b : Bool)
  | null
  | arr (elems : List JValue)
  | obj (fields : List (String × JValue))
deriving Repr

/- Size measure used for termination of the recursive traversal. -/
mutual
def valSize : JValue → Nat
  | .arr xs => 1 + listSize xs
  | .obj fs => 1 + entriesSize fs
  | _ => 1

def listSize : List JValue → Nat
  | [] => 0
  | x :: r => 1 + valSize x + listSize r

def entriesSize : List (String × JValue) → Nat
  | [] => 0
  | (_, v) :: r => 1 + valSize v + entriesSize r
end

/-- JavaScript truthiness of a value. -/
def jsTruthy : JValue → Bool
  | .num q => q != 0
  | .str s => s ≠ ""
  | .bool b => b
  | .null => false
  | .arr _ => true
  | .obj _ => true

/-- JavaScript truthiness where `none` models `undefined`. -/
def jsTruthyOpt : Option JValue → Bool
  | some v => jsTruthy v
  | none => false

/-- JavaScript `typeof v === 'object'` (true for objects, arrays and `null`). -/
def jsTypeofObject : JValue → Bool
  | .obj _ => true
  | .arr _ => true
  | .null => true
  | _ => false

/-- JavaScript `Array.isArray`. -/
def isJsArray : JValue → Bool
  | .arr _ => true
  | _ => false

/-- Property access `v[key]` on a non-null value; `none` models `undefined`.
The source only reads the named properties `time`, `tout`, `t`, `data`, none
of which is an array index, so array index access is not modelled. -/
def jsGet : JValue → String → Option JValue
  | .obj fields, k => fields.lookup k
  | _, _ => none

/-- `typeof item === 'number'`. -/
def isNumber : JValue → Bool
  | .num _ => true
  | _ => false

/-- Source `isNumericArray`: a non-empty array whose items are all numbers
(`!Array.isArray(arr) || arr.length === 0` rejects, then `arr.every`). -/
def isNumericArray : JValue → Bool
  | .arr elems => !elems.isEmpty && elems.all isNumber
  | _ => false

/-- `isNumericArray` applied to a possibly-`undefined` value
(`Array.isArray(undefined)` is false). -/
def isNumericArrayOpt : Option JValue → Bool
  | some v => isNumericArray v
  | none => false

/-- The rational contents of a numeric array (only applied under an
`isNumericArray` guard, where every item is a number). -/
def asNums : JValue → List ℚ
  | .arr elems => elems.map (fun v => match v with | .num q => q | _ => 0)
  | _ => []

/-- The statistics record of `calculateStats`.  `stdDevSq` holds the variance,
i.e. the square of the source's `stdDev = Math.sqrt(variance)`; see the file
header. -/
structure Stats where
  min : ℚ
  max : ℚ
  mean : ℚ
  stdDevSq : ℚ
deriving Repr, DecidableEq

/-- Source `calculateStats`: zeros on the empty input, otherwise
`Math.min(...data)`, `Math.max(...data)`, the arithmetic mean
`data.reduce((a,b) => a+b, 0) / data.length` and the population variance. -/
def calculateStats (data : List ℚ) : Stats :=
  match data with
  | [] => ⟨0, 0, 0, 0⟩
  | x :: xs =>
    let mn := xs.foldl min x
    let mx := xs.foldl max x
    let sum := (x :: xs).foldl (· + ·) 0
    let mean := sum / ((x :: xs).length : ℚ)
    let variance := ((x :: xs).foldl (fun a b => a + (b - mean) ^ 2) 0) / ((x :: xs).length : ℚ)
    ⟨mn, mx, mean, variance⟩

/-- Source `SignalData` (src/types.ts); the optional `time` and `stats`
fields are `Option`s. -/
structure SignalData where
  id : String
  name : String
  path : List String
  data : List ℚ
  time : Option (List ℚ)
  stats : Option Stats
deriving Repr, DecidableEq

/-- Source `BusNode` (src/types.ts): a named grouping with signals and
sub-buses. -/
inductive BusNode : Type where
  | mk (name : String) (path : List String) (signals : List SignalData)
      (subBuses : List BusNode) : BusNode
deriving Repr

def BusNode.name : BusNode → String
  | .mk n _ _ _ => n

def BusNode.path : BusNode → List String
  | .mk _ p _ _ => p

def BusNode.signals : BusNode → List SignalData
  | .mk _ _ s _ => s

def BusNode.subBuses : BusNode → List BusNode
  | .mk _ _ _ b => b

/-- Source `ParsedDataset` (src/types.ts); `flatSignals` is the id-keyed
record, modelled as an association list in insertion order. -/
structure ParsedDataset where
  rootBus : BusNode
  flatSignals : List (String × SignalData)
  commonTimeVector : Option (List ℚ)

/-- `value.length` for arrays (only consulted on arrays). -/
def jsArrLen : JValue → Nat
  | .arr xs => xs.length
  | _ => 0

/-- `value[0]` for non-empty arrays (only consulted on non-empty arrays). -/
def jsArrHead : JValue → JValue
  | .arr (x :: _) => x
  | _ => .null

/-- The element list of an array value. -/
def jsArrElems : JValue → List JValue
  | .arr xs => xs
  | _ => []

/-- Accumulated result of one `traverse` call body: the signals and sub-buses
pushed onto the current bus, and the entries added to the flat map. -/
structure TravAcc where
  signals : List SignalData
  subBuses : List BusNode
  flat : List (String × SignalData)

/-- `Object.keys` enumeration of an array: index strings paired with the
elements. -/
def idxEntries : List JValue → Nat → List (String × JValue)
  | [], _ => []
  | x :: r, i => (toString i, x) :: idxEntries r (i + 1)

/- The source `traverse` closure of `parseMatlabJson`, split into three
mutually recursive functions:
* `traverseVal` is `traverse(node, path, busName)`; it returns the built
  `BusNode` together with the entries the call added to the (source-global,
  here threaded) flat map.
* `goEntries` is the `for (const key of Object.keys(node))` loop over the
  remaining key/value entries, with its four-case classification body.
  Object fields are taken in the order given (JavaScript additionally fronts
  integer-like keys; no claim here depends on enumeration order).
* `goItems` is the `value.forEach((item, index) => ...)` loop of case 4
  (struct arrays).
`ctv` is the already-detected `commonTimeVector`. -/
mutual
def traverseVal (ctv : Option (List ℚ)) (node : JValue) (path : List String)
    (busName : String) : BusNode × List (String × SignalData) :=
  match node with
  | .obj fields =>
    -- typeof node === 'object', node !== null: iterate Object.keys(node)
    let r := goEntries ctv fields path
    (.mk busName path r.signals r.subBuses, r.flat)
  | .arr xs =>
    -- arrays are also typeof 'object'; Object.keys gives the index strings
    let r := goEntries ctv (idxEntries xs 0) path
    (.mk busName path r.signals r.subBuses, r.flat)
  | _ =>
    -- typeof node !== 'object' || node === null: return the empty bus
    (.mk busName path [] [], [])
termination_by valSize node
decreasing_by
  all_goals
    have hidx : ∀ (xs : List JValue) (i : Nat), entriesSize (idxEntries xs i) = listSize xs := by
      intro xs
      induction xs with
      | nil => intro i; simp [idxEntries, entriesSize, listSize]
      | cons x r ih => intro i; simp [idxEntries, entriesSize, listSize, ih]
  all_goals simp [valSize, entriesSize, listSize, hidx]
  all_goals try omega

def goEntries (ctv : Option (List ℚ)) (entries : List (String × JValue))
    (path : List String) : TravAcc :=
  match entries with
  | [] => ⟨[], [], []⟩
  | (key, value) :: rest =>
    let tr := goEntries ctv rest path
    let newPath := path ++ [key]
    let id := String.intercalate "." newPath
    if isNumericArray value then
      -- Case 1: numeric array => Signal (with the common time vector)
      if (key == "time" || key == "tout") && path == [] then
        -- root-level common-time-vector key: not emitted as a signal
        tr
      else
        let s : SignalData :=
          ⟨id, key, newPath, asNums value, ctv, some (calculateStats (asNums value))⟩
        ⟨s :: tr.signals, tr.subBuses, (id, s) :: tr.flat⟩
    else if jsTruthy value && jsTypeofObject value &&
        isNumericArrayOpt (jsGet value "data") && isNumericArrayOpt (jsGet value "time") then
      -- Case 2: Matlab timeseries object { data: [...], time: [...] }
      let s : SignalData :=
        ⟨id, key, newPath, asNums ((jsGet value "data").getD .null),
          some (asNums ((jsGet value "time").getD .null)),
          some (calculateStats (asNums ((jsGet value "data").getD .null)))⟩
      ⟨s :: tr.signals, tr.subBuses, (id, s) :: tr.flat⟩
    else if jsTypeofObject value && !isJsArray value then
      -- Case 3: nested object => sub-bus, attached only when non-empty
      let sb := traverseVal ctv value newPath key
      if sb.1.signals.length > 0 || sb.1.subBuses.length > 0 then
        ⟨tr.signals, sb.1 :: tr.subBuses, sb.2 ++ tr.flat⟩
      else
        ⟨tr.signals, tr.subBuses, sb.2 ++ tr.flat⟩
    else if isJsArray value && jsArrLen value != 0 && jsTypeofObject (jsArrHead value) then
      -- Case 4: array of objects (struct array): value.length > 0 and
      -- typeof value[0] === 'object'
      let res := goStructArr ctv value key newPath
      ⟨tr.signals, res.1 ++ tr.subBuses, res.2 ++ tr.flat⟩
    else
      -- all other shapes are silently ignored
      tr
termination_by entriesSize entries
decreasing_by
  all_goals
    have hidx : ∀ (xs : List JValue) (i : Nat), entriesSize (idxEntries xs i) = listSize xs := by
      intro xs
      induction xs with
      | nil => intro i; simp [idxEntries, entriesSize, listSize]
      | cons x r ih => intro i; simp [idxEntries, entriesSize, listSize, ih]
  all_goals simp [valSize, entriesSize, listSize, hidx]
  all_goals try omega

def goStructArr (ctv : Option (List ℚ)) (value : JValue) (key : String)
    (newPath : List String) : List BusNode × List (String × SignalData) :=
  match value with
  | .arr xs => goItems ctv xs key newPath 0
  | _ => ([], [])
termination_by valSize value
decreasing_by
  all_goals simp [valSize, listSize, entriesSize]
  all_goals try omega

def goItems (ctv : Option (List ℚ)) (items : List JValue) (key : String)
    (newPath : List String) (i : Nat) : List BusNode × List (String × SignalData) :=
  match items with
  | [] => ([], [])
  | item :: rest =>
    let sb := traverseVal ctv item (newPath ++ [toString i]) (key ++ "[" ++ toString i ++ "]")
    let tr := goItems ctv rest key newPath (i + 1)
    if sb.1.signals.length > 0 || sb.1.subBuses.length > 0 then
      (sb.1 :: tr.1, sb.2 ++ tr.2)
    else
      (tr.1, sb.2 ++ tr.2)
termination_by listSize items
decreasing_by
  all_goals
    have hidx : ∀ (xs : List JValue) (i : Nat), entriesSize (idxEntries xs i) = listSize xs := by
      intro xs
      induction xs with
      | nil => intro i; simp [idxEntries, entriesSize, listSize]
      | cons x r ih => intro i; simp [idxEntries, entriesSize, listSize, ih]
  all_goals simp [valSize, entriesSize, listSize, hidx]
  all_goals try omega
end

set_option allowUnsafeReducibility true in
attribute [semireducible] traverseVal goEntries goStructArr goItems

/-- The common time-vector probe of `parseMatlabJson`:
`if (jsonData.time && isNumericArray(jsonData.time)) ... else if (tout) ...
else if (t) ...`. -/
def rootCtv (jsonData : JValue) : Option (List ℚ) :=
  if jsTruthyOpt (jsGet jsonData "time") && isNumericArrayOpt (jsGet jsonData "time") then
    (jsGet jsonData "time").map asNums
  else if jsTruthyOpt (jsGet jsonData "tout") && isNumericArrayOpt (jsGet jsonData "tout") then
    (jsGet jsonData "tout").map asNums
  else if jsTruthyOpt (jsGet jsonData "t") && isNumericArrayOpt (jsGet jsonData "t") then
    (jsGet jsonData "t").map asNums
  else none

/-- Source `parseMatlabJson`.  It first probes `jsonData.time`, `jsonData.tout`,
`jsonData.t` for the common time vector and then runs `traverse` from the
root.  In JavaScript the property probe throws a TypeError when `jsonData` is
`null`, modelled by the `none` result. -/
def parseMatlabJson (jsonData : JValue) (fileName : String) : Option ParsedDataset :=
  match jsonData with
  | .null => none
  | _ =>
    let ctv := rootCtv jsonData
    let r := traverseVal ctv jsonData [] fileName
    some ⟨r.1, r.2, ctv⟩

/-- ASCII lower-casing of a character (the behaviour of `toLowerCase()` on the
ASCII names the program handles). -/
def jsLowerChar (c : Char) : Char :=
  if 'A' ≤ c ∧ c ≤ 'Z' then Char.ofNat (c.toNat + 32) else c

/-- `String.prototype.toLowerCase` (ASCII). -/
def jsLower (s : String) : String := ⟨s.data.map jsLowerChar⟩

/-- Substring test on character lists (the empty needle always matches). -/
def listIncludes : List Char → List Char → Bool
  | hay, needle =>
    if needle.isPrefixOf hay then true
    else
      match hay with
      | [] => needle.isEmpty
      | _ :: t => listIncludes t needle

/-- `String.prototype.includes`. -/
def strIncludes (s t : String) : Bool := listIncludes s.data t.data

/-- A whitespace-only (or empty) string. -/
def jsBlank (s : String) : Bool :=
  s.data.all (fun c => c == ' ' || c == '\t' || c == '\n' || c == '\r')

/- Source `filterBusTree` and its `node.subBuses.forEach` loop.
`if (!term) return node` keeps only the genuinely empty term: any non-empty
string, including whitespace, is truthy in JavaScript. -/
mutual
def filterBusTree (node : BusNode) (term : String) : Option BusNode :=
  match node with
  | .mk name path sigs subs =>
    if term == "" then some (.mk name path sigs subs)
    else if strIncludes (jsLower name) (jsLower term) then
      -- the node's own name matches: return the full subtree
      some (.mk name path sigs subs)
    else
      let matchingSignals := sigs.filter (fun s => strIncludes (jsLower s.name) (jsLower term))
      let matchingSubBuses := filterSubs subs term
      if matchingSignals.length > 0 || matchingSubBuses.length > 0 then
        some (.mk name path matchingSignals matchingSubBuses)
      else
        none
termination_by sizeOf node

def filterSubs (subs : List BusNode) (term : String) : List BusNode :=
  match subs with
  | [] => []
  | b :: r =>
    match filterBusTree b term with
    | some x => x :: filterSubs r term
    | none => filterSubs r term
termination_by sizeOf subs
end

set_option allowUnsafeReducibility true in
attribute [semireducible] filterBusTree filterSubs

/-- A row of the chart projection `{index, time, <signalId>: value, ...}`;
the per-signal fields are an association list in signal order, and
`time = none` models an `undefined` time entry (first signal with a `time`
array shorter than its data). -/
structure ChartRow where
  index : Nat
  time : Option ℚ
  fields : List (String × ℚ)
deriving Repr, DecidableEq

/-- Source `chartData` memo of ChartViewer: stride-downsampled merged rows.
The `for (let i = 0; i < dataLength; i += step)` loop is embedded as the
filter of the multiples of `step` below `dataLength`, in increasing order,
which enumerates exactly the indices the loop visits.
`Math.ceil(dataLength / maxDisplayPoints)` is the exact rational ceiling,
`(dataLength + maxDisplayPoints - 1) / maxDisplayPoints` over ℕ. -/
def chartData (signals : List SignalData) : List ChartRow :=
  match signals with
  | [] => []
  | baseSignal :: _ =>
    let dataLength := baseSignal.data.length
    let maxDisplayPoints := 3000
    let step := if dataLength > maxDisplayPoints then
        (dataLength + maxDisplayPoints - 1) / maxDisplayPoints
      else 1
    ((List.range dataLength).filter (fun i => i % step == 0)).map (fun i =>
      { index := i
        time := match baseSignal.time with
          | some t => t.get? i          -- baseSignal.time[i] (undefined out of range)
          | none => some (i : ℚ)        -- ordinal index time base
        fields := signals.filterMap (fun sig =>
          if i < sig.data.length then some (sig.id, sig.data.getD i 0) else none) })


/- Definitions derived from the embedding, used to state the claims. -/

/- All signals reachable through a bus tree, in depth-order. -/
mutual
def busSignals : BusNode → List SignalData
  | .mk _ _ sigs subs => sigs ++ subsSignals subs

def subsSignals : List BusNode → List SignalData
  | [] => []
  | b :: r => busSignals b ++ subsSignals r
end

set_option allowUnsafeReducibility true in
attribute [semireducible] busSignals subsSignals

/-- Every signal of a dataset, whether reached through the bus tree or the
flat map. -/
def allDatasetSignals (d : ParsedDataset) : List SignalData :=
  busSignals d.rootBus ++ d.flatSignals.map Prod.snd

/-- A bus is empty when it has no signals and no sub-buses. -/
def busIsEmpty : BusNode → Bool
  | .mk _ _ sigs subs => sigs.isEmpty && subs.isEmpty

/- The pruning invariant: every bus attached somewhere in a tree as a sub-bus
is non-empty (the root itself may be empty). -/
mutual
def prunedBus : BusNode → Bool
  | .mk _ _ _ subs => prunedSubs subs

def prunedSubs : List BusNode → Bool
  | [] => true
  | b :: r => (!busIsEmpty b && prunedBus b) && prunedSubs r
end

set_option allowUnsafeReducibility true in
attribute [semireducible] prunedBus prunedSubs

/-- The claimed signal invariant: `time`, when present, has the same length as
`data`. -/
def sigTimeOk (s : SignalData) : Bool :=
  match s.time with
  | some t => t.length == s.data.length
  | none => true

/- Input condition for the amended C2: every numeric array contained anywhere
in the value has the same given length. -/
mutual
def numArraysOK (L : Nat) : JValue → Bool
  | .arr xs => (!isNumericArray (.arr xs) || xs.length == L) && listNumOK L xs
  | .obj fs => entriesNumOK L fs
  | _ => true

def listNumOK (L : Nat) : List JValue → Bool
  | [] => true
  | x :: r => numArraysOK L x && listNumOK L r

def entriesNumOK (L : Nat) : List (String × JValue) → Bool
  | [] => true
  | (_, v) :: r => numArraysOK L v && entriesNumOK L r
end

set_option allowUnsafeReducibility true in
attribute [semireducible] numArraysOK listNumOK entriesNumOK

/-- Reference description of the common time-vector detection, following the
spec: the first of the root's own keys `time`, `tout`, `t` whose value is a
numeric sequence. -/
def ctvSpec (fields : List (String × JValue)) : Option (List ℚ) :=
  if isNumericArrayOpt (fields.lookup "time") then (fields.lookup "time").map asNums
  else if isNumericArrayOpt (fields.lookup "tout") then (fields.lookup "tout").map asNums
  else if isNumericArrayOpt (fields.lookup "t") then (fields.lookup "t").map asNums
  else none

/-- The signal (if any) that one key/value entry contributes to the current
bus, mirroring cases 1 and 2 of the `goEntries` classification. -/
def entrySignal (ctv : Option (List ℚ)) (path : List String) (key : String)
    (value : JValue) : Option SignalData :=
  let newPath := path ++ [key]
  let id := String.intercalate "." newPath
  if isNumericArray value then
    if (key == "time" || key == "tout") && path == [] then none
    else some ⟨id, key, newPath, asNums value, ctv, some (calculateStats (asNums value))⟩
  else if jsTruthy value && jsTypeofObject value &&
      isNumericArrayOpt (jsGet value "data") && isNumericArrayOpt (jsGet value "time") then
    some ⟨id, key, newPath, asNums ((jsGet value "data").getD .null),
      some (asNums ((jsGet value "time").getD .null)),
      some (calculateStats (asNums ((jsGet value "data").getD .null)))⟩
  else none

/-- Reference definition of the chart projection, following the claim: with
`n` the first signal's data length and `step = ceil(n/3000)` when `n > 3000`
(`1` otherwise), one row for each index `0, step, 2*step, ...` below `n`, in
increasing order; each row carries the index, the first signal's `time[i]`
when it has a time sequence (`i` otherwise), and one field per input signal
present exactly when `i` is below that signal's data length. -/
def chartDataSpec (signals : List SignalData) : List ChartRow :=
  match signals with
  | [] => []
  | first :: _ =>
    let n := first.data.length
    let step := if n > 3000 then (n + 3000 - 1) / 3000 else 1
    (List.range ((n + step - 1) / step)).map (fun k =>
      let i := k * step
      { index := i
        time := match first.time with
          | some t => t.get? i
          | none => some (i : ℚ)
        fields := signals.filterMap (fun sig =>
          if i < sig.data.length then some (sig.id, sig.data.getD i 0) else none) })

/-- Concrete bus tree used to witness C5: a named bus with a signal and a
sub-bus, both preserved in full on a name match. -/
def c5node : BusNode :=
  .mk "vehicle_bus" ["vehicle_bus"]
    [⟨"vehicle_bus.speed", "speed", ["vehicle_bus", "speed"], [1, 2], none, none⟩]
    [.mk "engine" ["vehicle_bus", "engine"]
      [⟨"vehicle_bus.engine.rpm", "rpm", ["vehicle_bus", "engine", "rpm"], [3], none, none⟩] []]

/-- Concrete node used in the C7 counterexample. -/
def c7node : BusNode := .mk "root" [] [⟨"a", "a", ["a"], [1], none, none⟩] []

/-- The C2 invariant over a whole dataset: every signal reachable through the
bus tree or the flat map has `time`, when present, of the same length as
`data`. -/
def datasetTimeOk (d : ParsedDataset) : Bool :=
  (allDatasetSignals d).all sigTimeOk

/-- Concrete input refuting C2: the root `time` key has length 2 but signal
`a` has length 3; the signal is emitted with the length-2 common time
vector. -/
def c2input : JValue :=
  .obj [("time", .arr [.num 0, .num 1]), ("a", .arr [.num 1, .num 2, .num 3])]

/- Structural induction principle for the nested `BusNode` tree, phrased with
a membership hypothesis over the sub-bus list. -/
def busNode_strongInduction (P : BusNode → Prop)
    (h : ∀ name path sigs subs, (∀ b ∈ subs, P b) → P (.mk name path sigs subs)) :
    ∀ b, P b
  | .mk name path sigs subs =>
    h name path sigs subs (fun b hb => busNode_strongInduction P h b)
termination_by b => sizeOf b
decreasing_by
  have := List.sizeOf_lt_of_mem hb
  simp only [BusNode.mk.sizeOf_spec]
  omega

/-- Concrete tree used to witness C6: term "sp" keeps signal `speed` and
prunes the `engine` sub-bus. -/
def c6tree : BusNode :=
  .mk "root" []
    [⟨"speed", "speed", ["speed"], [1, 2], none, none⟩,
     ⟨"rpm", "rpm", ["rpm"], [3], none, none⟩]
    [.mk "engine" ["engine"] [⟨"engine.temp", "temp", ["engine", "temp"], [4], none, none⟩] []]

/-- Concrete signals used to witness C4: two signals of unequal length, the
first carrying its own time vector. -/
def c4sigs : List SignalData :=
  [⟨"a", "a", ["a"], [10, 11, 12], some [0, 1, 2], none⟩,
   ⟨"b", "b", ["b"], [20, 21], none, none⟩]

/-- Concrete root object used to witness C1: `time` and `t` both numeric at
the root, plus an ignored string key. -/
def c1fields : List (String × JValue) :=
  [("time", .arr [.num 0]), ("t", .arr [.num 1, .num 2]), ("x", .str "hi")]

/-- The signal that `c1fields` produces for the root key `t`. -/
def c1sig : SignalData := ⟨"t", "t", ["t"], [1, 2], some [0], some (calculateStats [1, 2])⟩

/-- The dataset `parseMatlabJson` produces for `c1fields`. -/
def c1out : ParsedDataset := ⟨.mk "f" [] [c1sig] [], [("t", c1sig)], some [0]⟩

/-- Concrete input used to witness C3: one branch is empty after traversal
and must be pruned, one branch carries a signal and is kept. -/
def c3input : JValue :=
  .obj [("empty", .obj [("x", .str "s")]), ("keep", .obj [("v", .arr [.num 1])])]

/-- The signal of the kept branch of `c3input`. -/
def c3sig : SignalData := ⟨"keep.v", "v", ["keep", "v"], [1], none, some (calculateStats [1])⟩

/-- The dataset produced for `c3input`: the `empty` branch is pruned. -/
def c3out : ParsedDataset :=
  ⟨.mk "h" [] [] [.mk "keep" ["keep"] [c3sig] []], [("keep.v", c3sig)], none⟩

/-- Concrete input used to witness C10. -/
def c10input : JValue := .obj [("sig", .arr [.num 7])]

/-- The signal produced for `c10input`. -/
def c10sig : SignalData := ⟨"sig", "sig", ["sig"], [7], none, some (calculateStats [7])⟩

/-- The dataset produced for `c10input`. -/
def c10out : ParsedDataset := ⟨.mk "g" [] [c10sig] [], [("sig", c10sig)], none⟩

/-- Concrete length-consistent input witnessing the amended C2 (the spec's
own worked example). -/
def c2good : JValue :=
  .obj [("time", .arr [.num 0, .num 1, .num 2]),
        ("a", .arr [.num 1, .num 2, .num 3]),
        ("b", .obj [("c", .arr [.num 4, .num 5, .num 6])])]

/-- Root signal `a` of `c2good`. -/
def c2aSig : SignalData :=
  ⟨"a", "a", ["a"], [1, 2, 3], some [0, 1, 2], some (calculateStats [1, 2, 3])⟩

/-- Nested signal `b.c` of `c2good`. -/
def c2cSig : SignalData :=
  ⟨"b.c", "c", ["b", "c"], [4, 5, 6], some [0, 1, 2], some (calculateStats [4, 5, 6])⟩

/-- The dataset produced for `c2good`. -/
def c2goodOut : ParsedDataset :=
  ⟨.mk "f" [] [c2aSig] [.mk "b" ["b"] [c2cSig] []],
    [("a", c2aSig), ("b.c", c2cSig)], some [0, 1, 2]⟩

/- Helper lemmas for the statistics claim. -/

theorem foldl_min_le (xs : List ℚ) :
    ∀ x : ℚ, xs.foldl min x ≤ x ∧ ∀ y ∈ xs, xs.foldl min x ≤ y := by
  induction xs with
  | nil => intro x; exact ⟨le_refl x, by simp⟩
  | cons a l ih =>
    intro x
    simp only [List.foldl_cons]
    refine ⟨le_trans (ih (min x a)).1 (min_le_left x a), ?_⟩
    intro y hy
    rcases List.mem_cons.mp hy with h | h
    · rw [h]; exact le_trans (ih (min x a)).1 (min_le_right x a)
    · exact (ih (min x a)).2 y h

theorem le_foldl_max (xs : List ℚ) :
    ∀ x : ℚ, x ≤ xs.foldl max x ∧ ∀ y ∈ xs, y ≤ xs.foldl max x := by
  induction xs with
  | nil => intro x; exact ⟨le_refl x, by simp⟩
  | cons a l ih =>
    intro x
    simp only [List.foldl_cons]
    refine ⟨le_trans (le_max_left x a) (ih (max x a)).1, ?_⟩
    intro y hy
    rcases List.mem_cons.mp hy with h | h
    · rw [h]; exact le_trans (le_max_right x a) (ih (max x a)).1
    · exact (ih (max x a)).2 y h

theorem foldl_add_le (c : ℚ) (l : List ℚ) :
    (∀ y ∈ l, y ≤ c) → ∀ a : ℚ, l.foldl (· + ·) a ≤ a + l.length * c := by
  induction l with
  | nil => intro _ a; simp
  | cons x r ih =>
    intro h a
    simp only [List.foldl_cons, List.length_cons]
    have hx : x ≤ c := h x (List.mem_cons_self x r)
    have hr := ih (fun y hy => h y (List.mem_cons_of_mem x hy)) (a + x)
    have : (a + x) + r.length * c ≤ a + (r.length + 1 : ℕ) * c := by
      push_cast
      linarith
    linarith

theorem le_foldl_add (c : ℚ) (l : List ℚ) :
    (∀ y ∈ l, c ≤ y) → ∀ a : ℚ, a + l.length * c ≤ l.foldl (· + ·) a := by
  induction l with
  | nil => intro _ a; simp
  | cons x r ih =>
    intro h a
    simp only [List.foldl_cons, List.length_cons]
    have hx : c ≤ x := h x (List.mem_cons_self x r)
    have hr := ih (fun y hy => h y (List.mem_cons_of_mem x hy)) (a + x)
    have : a + (r.length + 1 : ℕ) * c ≤ (a + x) + r.length * c := by
      push_cast
      linarith
    linarith

/-- C8: for every numeric sequence `d`, the empty case yields the all-zero
statistics record, and on non-empty input `min ≤ mean ≤ max`. -/
theorem claim_C8_stats (d : List ℚ) :
    (d = [] → calculateStats d = ⟨0, 0, 0, 0⟩) ∧
    (d ≠ [] → (calculateStats d).min ≤ (calculateStats d).mean ∧
      (calculateStats d).mean ≤ (calculateStats d).max) := by
  constructor
  · intro h; subst h; rfl
  · intro h
    match d, h with
    | x :: xs, _ =>
      have hmin := foldl_min_le xs
      have hmax := le_foldl_max xs
      have npos : (0 : ℚ) < ((x :: xs).length : ℚ) := by
        simp only [List.length_cons]
        positivity
      simp only [calculateStats]
      constructor
      · rw [le_div_iff₀ npos]
        have hlow := le_foldl_add (xs.foldl min x) (x :: xs) ?_ 0
        · calc xs.foldl min x * ((x :: xs).length : ℚ)
              = 0 + ((x :: xs).length : ℚ) * xs.foldl min x := by ring
            _ ≤ (x :: xs).foldl (· + ·) 0 := by
                simpa using hlow
        · intro y hy
          rcases List.mem_cons.mp hy with hh | hh
          · subst hh; exact (hmin y).1
          · exact (hmin x).2 y hh
      · rw [div_le_iff₀ npos]
        have hhigh := foldl_add_le (xs.foldl max x) (x :: xs) ?_ 0
        · calc (x :: xs).foldl (· + ·) 0
              ≤ 0 + ((x :: xs).length : ℚ) * xs.foldl max x := by
                simpa using hhigh
            _ = xs.foldl max x * ((x :: xs).length : ℚ) := by ring
        · intro y hy
          rcases List.mem_cons.mp hy with hh | hh
          · subst hh; exact (hmax y).1
          · exact (hmax x).2 y hh

/-- C8 witness: the statistics bounds at the concrete sequence `[1, 2, 4]`. -/
theorem claim_C8_stats_witness :
    (calculateStats [1, 2, 4]).min ≤ (calculateStats [1, 2, 4]).mean ∧
      (calculateStats [1, 2, 4]).mean ≤ (calculateStats [1, 2, 4]).max :=
  (claim_C8_stats [1, 2, 4]).2 (by decide)


/-- C5: a non-blank search term contained case-insensitively in a bus's own
name makes `filterBusTree` return that node itself, unchanged in full. -/
theorem claim_C5_bus_name_match (node : BusNode) (term : String)
    (hb : jsBlank term = false)
    (hname : strIncludes (jsLower node.name) (jsLower term) = true) :
    filterBusTree node term = some node := by
  match node with
  | .mk name path sigs subs =>
    simp only [BusNode.name] at hname
    by_cases ht : (term == "") = true
    · simp [filterBusTree, ht]
    · simp [filterBusTree, ht, hname]

/-- C5 witness: searching for "Veh" returns the `vehicle_bus` node with its
entire subtree unchanged. -/
theorem claim_C5_witness :
    jsBlank "Veh" = false ∧ strIncludes (jsLower c5node.name) (jsLower "Veh") = true ∧
      filterBusTree c5node "Veh" = some c5node :=
  ⟨rfl, rfl, claim_C5_bus_name_match c5node "Veh" rfl rfl⟩

/-- C7 (amended): `filterBusTree` with the empty term is the identity; a
whitespace-only non-empty term is truthy in JavaScript and is treated as an
ordinary search term, not as the identity (see the counterexample). -/
theorem claim_C7_empty_identity (node : BusNode) :
    filterBusTree node "" = some node := by
  match node with
  | .mk name path sigs subs => simp [filterBusTree]

/-- C7 counterexample: the whitespace-only (blank) term " " does not return
the node unchanged — no name contains a space, so the filter returns `none`,
not `some c7node`. -/
theorem claim_C7_counterexample :
    jsBlank " " = true ∧ filterBusTree c7node " " = none :=
  ⟨rfl, rfl⟩

/-- C9 counterexample: the well-typed JSON value `null` makes
`parseMatlabJson` fail (the JavaScript source throws a TypeError reading
`jsonData.time` of `null`), instead of returning a `ParsedDataset`. -/
theorem claim_C9_counterexample :
    parseMatlabJson JValue.null "data" = none := rfl

/-- C9 (amended): for every input other than `null` the parser returns a
dataset without error, and the empty object yields the empty root bus with an
empty flat map and no common time vector. -/
theorem claim_C9_total_nonnull (j : JValue) (fileName : String)
    (h : j ≠ JValue.null) :
    (∃ d, parseMatlabJson j fileName = some d) ∧
      parseMatlabJson (JValue.obj []) fileName =
        some ⟨.mk fileName [] [] [], [], none⟩ := by
  constructor
  · cases j <;> first
      | exact absurd rfl h
      | exact ⟨_, rfl⟩
  · rfl

/-- C9 witness: the amended statement at the concrete input `{}`. -/
theorem claim_C9_witness :
    (∃ d, parseMatlabJson (JValue.obj []) "demo" = some d) ∧
      parseMatlabJson (JValue.obj []) "demo" =
        some ⟨.mk "demo" [] [] [], [], none⟩ :=
  claim_C9_total_nonnull (JValue.obj []) "demo" (fun h => JValue.noConfusion h)

/-- C2 counterexample: normalizing `c2input` succeeds and produces a signal
whose `time` (the common time vector, length 2) differs in length from its
`data` (length 3). -/
theorem claim_C2_counterexample :
    (parseMatlabJson c2input "f").map datasetTimeOk = some false := rfl


/- Helper lemmas for the filter claims. -/

theorem filter_idem {α : Type} (p : α → Bool) (l : List α) :
    (l.filter p).filter p = l.filter p := by
  induction l with
  | nil => rfl
  | cons x r ih =>
    by_cases hx : p x = true <;> simp [List.filter_cons, hx, ih]

theorem mem_filterSubs {term : String} :
    ∀ {subs : List BusNode} {b : BusNode}, b ∈ filterSubs subs term →
      ∃ sub ∈ subs, filterBusTree sub term = some b := by
  intro subs
  induction subs with
  | nil => intro b hb; simp [filterSubs] at hb
  | cons s r ih =>
    intro b hb
    cases hcase : filterBusTree s term with
    | some x =>
      simp only [filterSubs, hcase] at hb
      rcases List.mem_cons.mp hb with hb1 | hb2
      · exact ⟨s, List.mem_cons_self s r, by rw [hcase, hb1]⟩
      · obtain ⟨sub, hsub, hf⟩ := ih hb2
        exact ⟨sub, List.mem_cons_of_mem s hsub, hf⟩
    | none =>
      simp only [filterSubs, hcase] at hb
      obtain ⟨sub, hsub, hf⟩ := ih hb
      exact ⟨sub, List.mem_cons_of_mem s hsub, hf⟩

theorem filterSubs_fixed {term : String} :
    ∀ {subs : List BusNode}, (∀ b ∈ subs, filterBusTree b term = some b) →
      filterSubs subs term = subs := by
  intro subs
  induction subs with
  | nil => intro _; rfl
  | cons s r ih =>
    intro h
    have hs := h s (List.mem_cons_self s r)
    simp only [filterSubs, hs]
    rw [ih (fun b hb => h b (List.mem_cons_of_mem s hb))]

/-- C6: whenever `filterBusTree` returns a (non-null) result, filtering that
result again with the same term returns it unchanged — the filter is
idempotent on already-narrowed trees. -/
theorem claim_C6_filter_idempotent (node : BusNode) (term : String) (r : BusNode)
    (h : filterBusTree node term = some r) :
    filterBusTree r term = some r := by
  induction node using busNode_strongInduction generalizing r with
  | _ name path sigs subs IH => ?_
  cases ht : term == "" with
  | true =>
    simp only [filterBusTree, ht, if_true, Option.some.injEq] at h
    subst h
    simp [filterBusTree, ht]
  | false =>
    cases hn : strIncludes (jsLower name) (jsLower term) with
    | true =>
      simp only [filterBusTree, ht, hn, Bool.false_eq_true, if_false, if_true,
        Option.some.injEq] at h
      subst h
      simp [filterBusTree, ht, hn]
    | false =>
      simp only [filterBusTree, ht, hn, Bool.false_eq_true, if_false] at h
      by_cases hc : ((sigs.filter (fun s => strIncludes (jsLower s.name) (jsLower term))).length > 0
          ∨ (filterSubs subs term).length > 0)
      · rw [if_pos (by simpa using hc)] at h
        have hr : r = .mk name path
            (sigs.filter (fun s => strIncludes (jsLower s.name) (jsLower term)))
            (filterSubs subs term) := by
          cases h; rfl
        subst hr
        have hfix : filterSubs (filterSubs subs term) term = filterSubs subs term := by
          refine filterSubs_fixed ?_
          intro b hb
          obtain ⟨sub, hsub, hf⟩ := mem_filterSubs hb
          exact IH sub hsub b hf
        simp only [filterBusTree, ht, hn, Bool.false_eq_true, if_false, filter_idem, hfix]
        rw [if_pos (by simpa using hc)]
      · rw [if_neg (by simpa using hc)] at h
        cases h

/-- C6 witness: concrete idempotence at the tree `c6tree` and term "sp". -/
theorem claim_C6_witness :
    filterBusTree c6tree "sp" =
        some (.mk "root" [] [⟨"speed", "speed", ["speed"], [1, 2], none, none⟩] []) ∧
      filterBusTree (.mk "root" [] [⟨"speed", "speed", ["speed"], [1, 2], none, none⟩] []) "sp" =
        some (.mk "root" [] [⟨"speed", "speed", ["speed"], [1, 2], none, none⟩] []) := by
  have h : filterBusTree c6tree "sp" =
      some (.mk "root" [] [⟨"speed", "speed", ["speed"], [1, 2], none, none⟩] []) := by
    simp [c6tree, filterBusTree, filterSubs,
      show ("sp" == "") = false from rfl,
      show strIncludes (jsLower "root") (jsLower "sp") = false from rfl,
      show strIncludes (jsLower "speed") (jsLower "sp") = true from rfl,
      show strIncludes (jsLower "rpm") (jsLower "sp") = false from rfl,
      show strIncludes (jsLower "engine") (jsLower "sp") = false from rfl,
      show strIncludes (jsLower "temp") (jsLower "sp") = false from rfl]
  exact ⟨h, claim_C6_filter_idempotent c6tree "sp" _ h⟩


/- Helper lemma for the chart projection claim: the `for (i = 0; i < n; i += step)`
index set equals the increasing enumeration of the multiples of `step` below
`n`. -/

theorem range_filter_mod (step : Nat) (hstep : 0 < step) :
    ∀ n : Nat, (List.range n).filter (fun i => i % step == 0) =
      (List.range ((n + step - 1) / step)).map (· * step) := by
  intro n
  induction n with
  | zero =>
    have h0 : (step - 1) / step = 0 := Nat.div_eq_of_lt (by omega)
    simp [h0]
  | succ n ih =>
    rw [List.range_succ, List.filter_append, ih]
    rcases Nat.eq_zero_or_pos n with hn0 | hn1
    · subst hn0
      have h0 : (0 + step - 1) / step = 0 := by
        rw [Nat.zero_add]
        exact Nat.div_eq_of_lt (by omega)
      have h1 : (0 + 1 + step - 1) / step = 1 := by
        rw [show 0 + 1 + step - 1 = step from by omega]
        exact Nat.div_self hstep
      rw [h0, h1]
      simp [List.range_succ]
    · have hc1 : (n + 1 + step - 1) / step = n / step + 1 := by
        rw [show n + 1 + step - 1 = n + step from by omega]
        exact Nat.add_div_right n hstep
      have hc0 : (n + step - 1) / step = (n - 1) / step + 1 := by
        rw [show n + step - 1 = (n - 1) + step from by omega]
        exact Nat.add_div_right _ hstep
      have hsd : n / step = (n - 1) / step + if step ∣ n then 1 else 0 := by
        have h := Nat.succ_div (n - 1) step
        rw [show n - 1 + 1 = n from by omega] at h
        exact h
      by_cases hm : n % step = 0
      · have hdvd : step ∣ n := Nat.dvd_of_mod_eq_zero hm
        have hpf : ((n % step == 0) : Bool) = true := by simpa using hm
        have hmul : n = step * ((n - 1) / step + 1) := by
          conv_lhs => rw [← Nat.div_add_mod n step]
          rw [hm, Nat.add_zero, hsd, if_pos hdvd]
        rw [hc1, hc0, hsd, if_pos hdvd]
        conv_rhs => rw [List.range_succ, List.map_append]
        simp only [List.filter_cons, hpf, if_true, List.filter_nil, List.map_cons,
          List.map_nil]
        rw [show ((n - 1) / step + 1) * step = n from by rw [Nat.mul_comm]; exact hmul.symm]
      · have hdvd : ¬ step ∣ n := fun hd => hm (Nat.eq_zero_of_dvd_of_lt hd |> fun _ => by
          exact absurd (Nat.mod_eq_zero_of_dvd hd) hm)
        have hpf : ((n % step == 0) : Bool) = false := by simpa using hm
        rw [hc1, hc0, hsd, if_neg hdvd]
        simp [List.filter_cons, hpf]

/-- C4: the chart data projection equals its reference definition — stride
`ceil(n/3000)` above the 3000-point cap (`1` otherwise), one row per retained
index in increasing order, time from the first signal's time vector (ordinal
index otherwise), and one field per signal present exactly when the index is
within that signal's data. -/
theorem claim_C4_chart_projection (signals : List SignalData)
    (h : signals ≠ []) :
    chartData signals = chartDataSpec signals := by
  match signals, h with
  | baseSignal :: rest, _ =>
    simp only [chartData, chartDataSpec]
    have hstep : 0 < (if baseSignal.data.length > 3000 then
        (baseSignal.data.length + 3000 - 1) / 3000 else 1) := by
      split
      · exact Nat.div_pos (by omega) (by omega)
      · omega
    rw [range_filter_mod _ hstep, List.map_map]
    rfl

/-- C4 witness: the projection agreement at the concrete two-signal list
`c4sigs`. -/
theorem claim_C4_witness : chartData c4sigs = chartDataSpec c4sigs :=
  claim_C4_chart_projection c4sigs (List.cons_ne_nil _ _)


/- Helper lemmas about association-list lookup with unique keys. -/

theorem lookup_mem {β : Type} :
    ∀ {l : List (String × β)} {k : String} {v : β},
      l.lookup k = some v → (k, v) ∈ l := by
  intro l
  induction l with
  | nil => intro k v h; simp [List.lookup] at h
  | cons a t ih =>
    intro k v h
    rw [List.lookup] at h
    cases hk : (k == a.1) with
    | true =>
      rw [hk] at h
      cases h
      have : k = a.1 := by simpa using hk
      subst this
      exact List.mem_cons_self _ _
    | false =>
      rw [hk] at h
      exact List.mem_cons_of_mem _ (ih h)

theorem nodup_lookup {β : Type} :
    ∀ {l : List (String × β)}, (l.map Prod.fst).Nodup →
      ∀ {k : String} {v : β}, (k, v) ∈ l → l.lookup k = some v := by
  intro l
  induction l with
  | nil => intro _ k v h; simp at h
  | cons a t ih =>
    intro hnd k v h
    rw [List.map_cons, List.nodup_cons] at hnd
    rcases List.mem_cons.mp h with h1 | h2
    · subst h1
      simp [List.lookup]
    · have hne : (k == a.1) = false := by
        have : k ∈ t.map Prod.fst := List.mem_map.mpr ⟨(k, v), h2, rfl⟩
        have : k ≠ a.1 := fun he => hnd.1 (he ▸ this)
        simpa using this
      rw [List.lookup, hne]
      exact ih hnd.2 h2

theorem truthyOpt_and_numeric (o : Option JValue) :
    (jsTruthyOpt o && isNumericArrayOpt o) = isNumericArrayOpt o := by
  cases o with
  | none => rfl
  | some v => cases v <;> simp [jsTruthyOpt, jsTruthy, isNumericArrayOpt, isNumericArray]

/- The signals pushed by the entry loop are exactly the per-entry signals of
cases 1 and 2, in entry order. -/

theorem goEntries_signals (ctv : Option (List ℚ)) :
    ∀ (entries : List (String × JValue)) (path : List String),
      (goEntries ctv entries path).signals =
        entries.filterMap (fun kv => entrySignal ctv path kv.1 kv.2) := by
  intro entries
  induction entries with
  | nil => intro path; rfl
  | cons kv rest ih =>
    intro path
    obtain ⟨key, value⟩ := kv
    simp only [entrySignal] at ih
    simp only [goEntries, entrySignal, List.filterMap_cons]
    by_cases g1 : isNumericArray value = true
    · rw [if_pos g1, if_pos g1]
      by_cases g2 : ((key == "time" || key == "tout") && path == []) = true
      · rw [if_pos g2, if_pos g2]
        exact ih path
      · rw [if_neg g2, if_neg g2]
        simpa using ih path
    · rw [if_neg g1, if_neg g1]
      by_cases g3 : (jsTruthy value && jsTypeofObject value &&
          isNumericArrayOpt (jsGet value "data") &&
          isNumericArrayOpt (jsGet value "time")) = true
      · rw [if_pos g3, if_pos g3]
        simpa using ih path
      · rw [if_neg g3, if_neg g3]
        by_cases g4 : (jsTypeofObject value && !isJsArray value) = true
        · rw [if_pos g4]
          split <;> simpa using ih path
        · rw [if_neg g4]
          by_cases g5 : (isJsArray value && jsArrLen value != 0 &&
              jsTypeofObject (jsArrHead value)) = true
          · rw [if_pos g5]
            simpa using ih path
          · rw [if_neg g5]
            simpa using ih path


/- Helper lemmas for C1. -/

theorem rootCtv_eq_ctvSpec (fields : List (String × JValue)) :
    rootCtv (.obj fields) = ctvSpec fields := by
  simp only [rootCtv, ctvSpec, truthyOpt_and_numeric, jsGet]

theorem entrySignal_name {ctv : Option (List ℚ)} {path : List String}
    {key : String} {value : JValue} {s : SignalData}
    (h : entrySignal ctv path key value = some s) : s.name = key := by
  simp only [entrySignal] at h
  split_ifs at h <;> first
    | exact Option.noConfusion h
    | (cases h; rfl)

theorem traverseVal_obj_signals (ctv : Option (List ℚ))
    (fields : List (String × JValue)) (path : List String) (name : String) :
    (traverseVal ctv (.obj fields) path name).1.signals =
      fields.filterMap (fun kv => entrySignal ctv path kv.1 kv.2) := by
  rw [traverseVal]
  simp only [BusNode.signals]
  exact goEntries_signals ctv fields path

/-- C1: on a root object, the common time vector is the value of the first of
the keys `time`, `tout`, `t` whose value is a numeric sequence; a root key
`time` or `tout` holding a numeric sequence is never emitted as a root
signal, while a root key `t` holding a numeric sequence is emitted as a root
signal. -/
theorem claim_C1_root_time_detection (fields : List (String × JValue))
    (fileName : String) (d : ParsedDataset)
    (hnd : (fields.map Prod.fst).Nodup)
    (hp : parseMatlabJson (.obj fields) fileName = some d) :
    d.commonTimeVector = ctvSpec fields
    ∧ (∀ v, fields.lookup "time" = some v → isNumericArray v = true →
        ∀ s ∈ d.rootBus.signals, s.name ≠ "time")
    ∧ (∀ v, fields.lookup "tout" = some v → isNumericArray v = true →
        ∀ s ∈ d.rootBus.signals, s.name ≠ "tout")
    ∧ (∀ v, fields.lookup "t" = some v → isNumericArray v = true →
        ∃ s ∈ d.rootBus.signals, s.name = "t" ∧ s.data = asNums v) := by
  simp only [parseMatlabJson, Option.some.injEq] at hp
  subst hp
  have hsig : ∀ s : SignalData,
      s ∈ (traverseVal (rootCtv (.obj fields)) (.obj fields) [] fileName).1.signals ↔
        ∃ kv ∈ fields, entrySignal (rootCtv (.obj fields)) [] kv.1 kv.2 = some s := by
    intro s
    rw [traverseVal_obj_signals]
    exact List.mem_filterMap
  refine ⟨rootCtv_eq_ctvSpec fields, ?_, ?_, ?_⟩
  · intro v hv hnum s hs hname
    obtain ⟨⟨k, w⟩, hmem, hes⟩ := (hsig s).mp hs
    have hk : k = "time" := (entrySignal_name hes).symm.trans hname
    subst hk
    have hw : fields.lookup "time" = some w := nodup_lookup hnd hmem
    rw [hv] at hw
    cases hw
    have : entrySignal (rootCtv (.obj fields)) [] "time" v = none := by
      simp [entrySignal, hnum]
    rw [this] at hes
    exact Option.noConfusion hes
  · intro v hv hnum s hs hname
    obtain ⟨⟨k, w⟩, hmem, hes⟩ := (hsig s).mp hs
    have hk : k = "tout" := (entrySignal_name hes).symm.trans hname
    subst hk
    have hw : fields.lookup "tout" = some w := nodup_lookup hnd hmem
    rw [hv] at hw
    cases hw
    have : entrySignal (rootCtv (.obj fields)) [] "tout" v = none := by
      simp [entrySignal, hnum]
    rw [this] at hes
    exact Option.noConfusion hes
  · intro v hv hnum
    have hmem : ("t", v) ∈ fields := lookup_mem hv
    have hes : entrySignal (rootCtv (.obj fields)) [] "t" v =
        some ⟨"t", "t", ["t"], asNums v, rootCtv (.obj fields),
          some (calculateStats (asNums v))⟩ := by
      simp [entrySignal, hnum, show ".".intercalate ["t"] = "t" from rfl]
    refine ⟨_, (hsig _).mpr ⟨("t", v), hmem, hes⟩, rfl, rfl⟩

/-- C1 witness: the detection and emission behaviour at the concrete root
object `c1fields`. -/
theorem claim_C1_witness :
    c1out.commonTimeVector = ctvSpec c1fields ∧
      (∀ s ∈ c1out.rootBus.signals, s.name ≠ "time") ∧
      (∃ s ∈ c1out.rootBus.signals, s.name = "t" ∧ s.data = asNums (.arr [.num 1, .num 2])) := by
  have h := claim_C1_root_time_detection c1fields "f" c1out (by decide) rfl
  exact ⟨h.1, h.2.1 (.arr [.num 0]) rfl rfl, h.2.2.2 (.arr [.num 1, .num 2]) rfl rfl⟩


/- Size and enumeration helper lemmas for the traversal inductions. -/

theorem one_le_valSize (j : JValue) : 1 ≤ valSize j := by
  cases j <;> simp [valSize]

theorem entriesSize_idx (xs : List JValue) (i : Nat) :
    entriesSize (idxEntries xs i) = listSize xs := by
  induction xs generalizing i with
  | nil => simp [idxEntries, entriesSize, listSize]
  | cons x r ih => simp [idxEntries, entriesSize, listSize, ih]

theorem idxEntries_mem : ∀ {xs : List JValue} {i : Nat} {kv : String × JValue},
    kv ∈ idxEntries xs i → kv.2 ∈ xs := by
  intro xs
  induction xs with
  | nil => intro i kv h; simp [idxEntries] at h
  | cons x r ih =>
    intro i kv h
    rw [idxEntries] at h
    rcases List.mem_cons.mp h with h1 | h2
    · subst h1; exact List.mem_cons_self _ _
    · exact List.mem_cons_of_mem _ (ih h2)

theorem busIsEmpty_false {b : BusNode}
    (h : b.signals.length > 0 ∨ b.subBuses.length > 0) : busIsEmpty b = false := by
  cases b with
  | mk nm p sg sb =>
    simp only [BusNode.signals, BusNode.subBuses] at h
    cases sg <;> cases sb <;> simp_all [busIsEmpty]

theorem prunedSubs_append (a b : List BusNode) :
    prunedSubs (a ++ b) = (prunedSubs a && prunedSubs b) := by
  induction a with
  | nil => simp [prunedSubs]
  | cons x r ih => simp [prunedSubs, ih, Bool.and_assoc]

theorem subsSignals_append (a b : List BusNode) :
    subsSignals (a ++ b) = subsSignals a ++ subsSignals b := by
  induction a with
  | nil => simp [subsSignals]
  | cons x r ih => simp [subsSignals, ih]

/- Pruning invariant of the traversal, by strong induction on the size
measure: no empty bus is ever attached as a sub-bus. -/

theorem traverse_pruned (ctv : Option (List ℚ)) :
    ∀ n : Nat,
      (∀ j path name, valSize j ≤ n →
        prunedBus (traverseVal ctv j path name).1 = true) ∧
      (∀ entries path, entriesSize entries ≤ n →
        prunedSubs (goEntries ctv entries path).subBuses = true) ∧
      (∀ value key np, valSize value ≤ n →
        prunedSubs (goStructArr ctv value key np).1 = true) ∧
      (∀ items key np i, listSize items ≤ n →
        prunedSubs (goItems ctv items key np i).1 = true) := by
  intro n
  induction n using Nat.strong_induction_on with
  | _ n IH =>
  refine ⟨?_, ?_, ?_, ?_⟩
  · intro j path name hsz
    cases j with
    | obj fields =>
      rw [traverseVal, prunedBus]
      simp only [valSize] at hsz
      exact (IH (n - 1) (by omega)).2.1 fields path (by omega)
    | arr xs =>
      rw [traverseVal, prunedBus]
      simp only [valSize] at hsz
      exact (IH (n - 1) (by omega)).2.1 (idxEntries xs 0) path
        (by rw [entriesSize_idx]; omega)
    | num q => simp [traverseVal, prunedBus, prunedSubs]
    | str st => simp [traverseVal, prunedBus, prunedSubs]
    | bool b => simp [traverseVal, prunedBus, prunedSubs]
    | null => simp [traverseVal, prunedBus, prunedSubs]
  · intro entries path hsz
    cases entries with
    | nil => rw [goEntries]; rfl
    | cons kv rest =>
      obtain ⟨key, value⟩ := kv
      simp only [goEntries]
      simp only [entriesSize] at hsz
      have hv1 := one_le_valSize value
      have htail := (IH (n - 1) (by omega)).2.1 rest path (by omega)
      by_cases g1 : isNumericArray value = true
      · rw [if_pos g1]
        by_cases g2 : ((key == "time" || key == "tout") && path == []) = true
        · rw [if_pos g2]; exact htail
        · rw [if_neg g2]; exact htail
      · rw [if_neg g1]
        by_cases g3 : (jsTruthy value && jsTypeofObject value &&
            isNumericArrayOpt (jsGet value "data") &&
            isNumericArrayOpt (jsGet value "time")) = true
        · rw [if_pos g3]; exact htail
        · rw [if_neg g3]
          by_cases g4 : (jsTypeofObject value && !isJsArray value) = true
          · rw [if_pos g4]
            have hb := (IH (n - 1) (by omega)).1 value (path ++ [key]) key (by omega)
            split
            · rename_i hguard
              have hne : busIsEmpty (traverseVal ctv value (path ++ [key]) key).1 = false := by
                apply busIsEmpty_false
                simpa using hguard
              show prunedSubs (_ :: (goEntries ctv rest path).subBuses) = true
              rw [prunedSubs]
              simp [hne, hb, htail]
            · exact htail
          · rw [if_neg g4]
            by_cases g5 : (isJsArray value && jsArrLen value != 0 &&
                jsTypeofObject (jsArrHead value)) = true
            · rw [if_pos g5]
              have hs := (IH (n - 1) (by omega)).2.2.1 value key (path ++ [key]) (by omega)
              show prunedSubs ((goStructArr ctv value key (path ++ [key])).1 ++
                (goEntries ctv rest path).subBuses) = true
              rw [prunedSubs_append]
              simp [hs, htail]
            · rw [if_neg g5]; exact htail
  · intro value key np hsz
    cases value with
    | arr xs =>
      rw [goStructArr]
      simp only [valSize] at hsz
      exact (IH (n - 1) (by omega)).2.2.2 xs key np 0 (by omega)
    | num q => simp [goStructArr, prunedSubs]
    | str st => simp [goStructArr, prunedSubs]
    | bool b => simp [goStructArr, prunedSubs]
    | null => simp [goStructArr, prunedSubs]
    | obj fields => simp [goStructArr, prunedSubs]
  · intro items key np i hsz
    cases items with
    | nil => rw [goItems]; rfl
    | cons item rest =>
      simp only [goItems]
      simp only [listSize] at hsz
      have hv1 := one_le_valSize item
      have hb := (IH (n - 1) (by omega)).1 item (np ++ [toString i])
        (key ++ "[" ++ toString i ++ "]") (by omega)
      have htail := (IH (n - 1) (by omega)).2.2.2 rest key np (i + 1) (by omega)
      split
      · rename_i hguard
        have hne : busIsEmpty
            (traverseVal ctv item (np ++ [toString i])
              (key ++ "[" ++ toString i ++ "]")).1 = false := by
          apply busIsEmpty_false
          simpa using hguard
        show prunedSubs (_ :: (goItems ctv rest key np (i + 1)).1) = true
        rw [prunedSubs]
        simp [hne, hb, htail]
      · exact htail


theorem parseMatlabJson_eq (j : JValue) (f : String) (h : j ≠ .null) :
    parseMatlabJson j f = some ⟨(traverseVal (rootCtv j) j [] f).1,
      (traverseVal (rootCtv j) j [] f).2, rootCtv j⟩ := by
  cases j <;> first | exact absurd rfl h | rfl

/-- C3: in every dataset the normalizer produces, every bus attached in some
parent's sub-bus list has at least one signal or at least one sub-bus; only
the root bus may be empty. -/
theorem claim_C3_pruned (j : JValue) (fileName : String) (d : ParsedDataset)
    (hp : parseMatlabJson j fileName = some d) :
    prunedBus d.rootBus = true := by
  have hnn : j ≠ JValue.null := by
    intro he; subst he; exact Option.noConfusion hp
  rw [parseMatlabJson_eq j fileName hnn, Option.some.injEq] at hp
  subst hp
  exact (traverse_pruned (rootCtv j) (valSize j)).1 j [] fileName (le_refl _)

/-- C3 witness: the concrete input `c3input` parses to `c3out`, whose pruning
invariant holds (the empty branch was dropped). -/
theorem claim_C3_witness :
    parseMatlabJson c3input "h" = some c3out ∧ prunedBus c3out.rootBus = true :=
  ⟨rfl, claim_C3_pruned c3input "h" c3out rfl⟩


/- Soundness of the traversal's signal production, by strong induction on the
size measure, generic in a value invariant `V` (closed under object fields
and array elements) and a signal property `Φ` guaranteed by `entrySignal` on
`V`-values.  Every signal in the built tree and in the flat-map additions
satisfies `Φ`. -/

theorem traverse_signals_sound (ctv : Option (List ℚ)) (V : JValue → Bool)
    (Φ : SignalData → Prop)
    (hobj : ∀ fs, V (.obj fs) = true → ∀ kv ∈ fs, V kv.2 = true)
    (harr : ∀ xs, V (.arr xs) = true → ∀ x ∈ xs, V x = true)
    (hsig : ∀ path key value s, V value = true →
        entrySignal ctv path key value = some s → Φ s) :
    ∀ n : Nat,
      (∀ j path name, valSize j ≤ n → V j = true →
        (∀ s ∈ busSignals (traverseVal ctv j path name).1, Φ s) ∧
        (∀ p ∈ (traverseVal ctv j path name).2, Φ p.2)) ∧
      (∀ entries path, entriesSize entries ≤ n → (∀ kv ∈ entries, V kv.2 = true) →
        (∀ s ∈ (goEntries ctv entries path).signals, Φ s) ∧
        (∀ s ∈ subsSignals (goEntries ctv entries path).subBuses, Φ s) ∧
        (∀ p ∈ (goEntries ctv entries path).flat, Φ p.2)) ∧
      (∀ value key np, valSize value ≤ n → V value = true →
        (∀ s ∈ subsSignals (goStructArr ctv value key np).1, Φ s) ∧
        (∀ p ∈ (goStructArr ctv value key np).2, Φ p.2)) ∧
      (∀ items key np i, listSize items ≤ n → (∀ x ∈ items, V x = true) →
        (∀ s ∈ subsSignals (goItems ctv items key np i).1, Φ s) ∧
        (∀ p ∈ (goItems ctv items key np i).2, Φ p.2)) := by
  intro n
  induction n using Nat.strong_induction_on with
  | _ n IH =>
  refine ⟨?_, ?_, ?_, ?_⟩
  · intro j path name hsz hV
    cases j with
    | obj fields =>
      rw [traverseVal]
      simp only [valSize] at hsz
      have hE := (IH (n - 1) (by omega)).2.1 fields path (by omega) (hobj fields hV)
      constructor
      · intro s hs
        rw [busSignals] at hs
        rcases List.mem_append.mp hs with h | h
        · exact hE.1 s h
        · exact hE.2.1 s h
      · exact hE.2.2
    | arr xs =>
      rw [traverseVal]
      simp only [valSize] at hsz
      have hVE : ∀ kv ∈ idxEntries xs 0, V kv.2 = true :=
        fun kv hkv => harr xs hV kv.2 (idxEntries_mem hkv)
      have hE := (IH (n - 1) (by omega)).2.1 (idxEntries xs 0) path
        (by rw [entriesSize_idx]; omega) hVE
      constructor
      · intro s hs
        rw [busSignals] at hs
        rcases List.mem_append.mp hs with h | h
        · exact hE.1 s h
        · exact hE.2.1 s h
      · exact hE.2.2
    | num q => simp [traverseVal, busSignals, subsSignals]
    | str st => simp [traverseVal, busSignals, subsSignals]
    | bool b => simp [traverseVal, busSignals, subsSignals]
    | null => simp [traverseVal, busSignals, subsSignals]
  · intro entries path hsz hV
    cases entries with
    | nil =>
      rw [goEntries]
      refine ⟨?_, ?_, ?_⟩ <;> intro x hx <;> simp [subsSignals] at hx
    | cons kv rest =>
      obtain ⟨key, value⟩ := kv
      simp only [goEntries]
      simp only [entriesSize] at hsz
      have hv1 := one_le_valSize value
      have hVhead : V value = true := hV (key, value) (List.mem_cons_self _ _)
      have hVrest : ∀ kv ∈ rest, V kv.2 = true :=
        fun kv hkv => hV kv (List.mem_cons_of_mem _ hkv)
      have htail := (IH (n - 1) (by omega)).2.1 rest path (by omega) hVrest
      by_cases g1 : isNumericArray value = true
      · rw [if_pos g1]
        by_cases g2 : ((key == "time" || key == "tout") && path == []) = true
        · rw [if_pos g2]; exact htail
        · rw [if_neg g2]
          have hes : entrySignal ctv path key value =
              some ⟨String.intercalate "." (path ++ [key]), key, path ++ [key],
                asNums value, ctv, some (calculateStats (asNums value))⟩ := by
            simp only [entrySignal]
            rw [if_pos g1, if_neg g2]
          have hΦ := hsig path key value _ hVhead hes
          refine ⟨?_, htail.2.1, ?_⟩
          · intro s hs
            rcases List.mem_cons.mp hs with h | h
            · rw [h]; exact hΦ
            · exact htail.1 s h
          · intro p hp
            rcases List.mem_cons.mp hp with h | h
            · rw [h]; exact hΦ
            · exact htail.2.2 p h
      · rw [if_neg g1]
        by_cases g3 : (jsTruthy value && jsTypeofObject value &&
            isNumericArrayOpt (jsGet value "data") &&
            isNumericArrayOpt (jsGet value "time")) = true
        · rw [if_pos g3]
          have hes : entrySignal ctv path key value =
              some ⟨String.intercalate "." (path ++ [key]), key, path ++ [key],
                asNums ((jsGet value "data").getD .null),
                some (asNums ((jsGet value "time").getD .null)),
                some (calculateStats (asNums ((jsGet value "data").getD .null)))⟩ := by
            simp only [entrySignal]
            rw [if_neg g1, if_pos g3]
          have hΦ := hsig path key value _ hVhead hes
          refine ⟨?_, htail.2.1, ?_⟩
          · intro s hs
            rcases List.mem_cons.mp hs with h | h
            · rw [h]; exact hΦ
            · exact htail.1 s h
          · intro p hp
            rcases List.mem_cons.mp hp with h | h
            · rw [h]; exact hΦ
            · exact htail.2.2 p h
        · rw [if_neg g3]
          by_cases g4 : (jsTypeofObject value && !isJsArray value) = true
          · rw [if_pos g4]
            have hsub := (IH (n - 1) (by omega)).1 value (path ++ [key]) key
              (by omega) hVhead
            split
            · refine ⟨htail.1, ?_, ?_⟩
              · intro s hs
                rw [subsSignals] at hs
                rcases List.mem_append.mp hs with h | h
                · exact hsub.1 s h
                · exact htail.2.1 s h
              · intro p hp
                rcases List.mem_append.mp hp with h | h
                · exact hsub.2 p h
                · exact htail.2.2 p h
            · refine ⟨htail.1, htail.2.1, ?_⟩
              intro p hp
              rcases List.mem_append.mp hp with h | h
              · exact hsub.2 p h
              · exact htail.2.2 p h
          · rw [if_neg g4]
            by_cases g5 : (isJsArray value && jsArrLen value != 0 &&
                jsTypeofObject (jsArrHead value)) = true
            · rw [if_pos g5]
              have hstr := (IH (n - 1) (by omega)).2.2.1 value key (path ++ [key])
                (by omega) hVhead
              refine ⟨htail.1, ?_, ?_⟩
              · intro s hs
                rw [subsSignals_append] at hs
                rcases List.mem_append.mp hs with h | h
                · exact hstr.1 s h
                · exact htail.2.1 s h
              · intro p hp
                rcases List.mem_append.mp hp with h | h
                · exact hstr.2 p h
                · exact htail.2.2 p h
            · rw [if_neg g5]; exact htail
  · intro value key np hsz hV
    cases value with
    | arr xs =>
      rw [goStructArr]
      simp only [valSize] at hsz
      exact (IH (n - 1) (by omega)).2.2.2 xs key np 0 (by omega) (harr xs hV)
    | num q => simp [goStructArr, subsSignals]
    | str st => simp [goStructArr, subsSignals]
    | bool b => simp [goStructArr, subsSignals]
    | null => simp [goStructArr, subsSignals]
    | obj fields => simp [goStructArr, subsSignals]
  · intro items key np i hsz hV
    cases items with
    | nil =>
      rw [goItems]
      refine ⟨?_, ?_⟩ <;> intro x hx <;> simp [subsSignals] at hx
    | cons item rest =>
      simp only [goItems]
      simp only [listSize] at hsz
      have hv1 := one_le_valSize item
      have hVhead : V item = true := hV item (List.mem_cons_self _ _)
      have hVrest : ∀ x ∈ rest, V x = true :=
        fun x hx => hV x (List.mem_cons_of_mem _ hx)
      have hsub := (IH (n - 1) (by omega)).1 item (np ++ [toString i])
        (key ++ "[" ++ toString i ++ "]") (by omega) hVhead
      have htail := (IH (n - 1) (by omega)).2.2.2 rest key np (i + 1) (by omega) hVrest
      split
      · refine ⟨?_, ?_⟩
        · intro s hs
          rw [subsSignals] at hs
          rcases List.mem_append.mp hs with h | h
          · exact hsub.1 s h
          · exact htail.1 s h
        · intro p hp
          rcases List.mem_append.mp hp with h | h
          · exact hsub.2 p h
          · exact htail.2 p h
      · refine ⟨htail.1, ?_⟩
        intro p hp
        rcases List.mem_append.mp hp with h | h
        · exact hsub.2 p h
        · exact htail.2 p h


/- Instantiations of the signal-soundness induction. -/

theorem asNums_ne_nil : ∀ {v : JValue}, isNumericArray v = true → asNums v ≠ [] := by
  intro v h
  cases v <;> simp [isNumericArray] at h
  rename_i elems
  cases elems with
  | nil => simp at h
  | cons a l => simp [asNums]

/-- C10: every signal the normalizer emits (tree or flat map) has non-empty
data and a present `stats` field, so the all-zero degenerate statistics case
never occurs for normalizer-produced signals. -/
theorem claim_C10_signal_wf (j : JValue) (fileName : String) (d : ParsedDataset)
    (hp : parseMatlabJson j fileName = some d) :
    ∀ s ∈ allDatasetSignals d, s.data ≠ [] ∧ s.stats.isSome = true := by
  have hnn : j ≠ JValue.null := fun he => by subst he; exact Option.noConfusion hp
  rw [parseMatlabJson_eq j fileName hnn, Option.some.injEq] at hp
  subst hp
  have hsig : ∀ path key value s, (fun _ : JValue => true) value = true →
      entrySignal (rootCtv j) path key value = some s →
      s.data ≠ [] ∧ s.stats.isSome = true := by
    intro path key value s _ hes
    simp only [entrySignal] at hes
    by_cases h1 : isNumericArray value = true
    · by_cases h2 : ((key == "time" || key == "tout") && path == []) = true
      · rw [if_pos h1, if_pos h2] at hes
        exact Option.noConfusion hes
      · rw [if_pos h1, if_neg h2] at hes
        cases hes
        exact ⟨asNums_ne_nil h1, rfl⟩
    · by_cases h3 : (jsTruthy value && jsTypeofObject value &&
          isNumericArrayOpt (jsGet value "data") &&
          isNumericArrayOpt (jsGet value "time")) = true
      · rw [if_neg h1, if_pos h3] at hes
        have hdat : isNumericArrayOpt (jsGet value "data") = true := by
          simp only [Bool.and_eq_true] at h3
          exact h3.1.2
        cases hgd : jsGet value "data" with
        | none => rw [hgd] at hdat; simp [isNumericArrayOpt] at hdat
        | some dv =>
          rw [hgd] at hdat hes
          cases hes
          exact ⟨asNums_ne_nil (by simpa [isNumericArrayOpt] using hdat), rfl⟩
      · rw [if_neg h1, if_neg h3] at hes
        exact Option.noConfusion hes
  have H := traverse_signals_sound (rootCtv j) (fun _ => true)
    (fun s => s.data ≠ [] ∧ s.stats.isSome = true)
    (fun _ _ kv _ => rfl) (fun _ _ x _ => rfl) hsig (valSize j)
  intro s hs
  simp only [allDatasetSignals] at hs
  rcases List.mem_append.mp hs with h | h
  · exact (H.1 j [] fileName (le_refl _) rfl).1 s h
  · obtain ⟨p, hp2, hps⟩ := List.mem_map.mp h
    rw [← hps]
    exact (H.1 j [] fileName (le_refl _) rfl).2 p hp2

/-- C10 witness: the concrete dataset of `c10input` and its signal. -/
theorem claim_C10_witness :
    c10sig ∈ allDatasetSignals c10out ∧ c10sig.data ≠ [] ∧ c10sig.stats.isSome = true := by
  have hmem : c10sig ∈ allDatasetSignals c10out := by
    simp [allDatasetSignals, c10out, busSignals, subsSignals]
  exact ⟨hmem, claim_C10_signal_wf c10input "g" c10out rfl c10sig hmem⟩

/- Helper lemmas about the common-length input condition. -/

theorem entriesNumOK_mem {L : Nat} :
    ∀ {fs : List (String × JValue)}, entriesNumOK L fs = true →
      ∀ kv ∈ fs, numArraysOK L kv.2 = true := by
  intro fs
  induction fs with
  | nil => intro _ kv h; simp at h
  | cons a t ih =>
    intro hok kv hkv
    obtain ⟨ak, av⟩ := a
    rw [entriesNumOK, Bool.and_eq_true] at hok
    rcases List.mem_cons.mp hkv with h1 | h2
    · rw [h1]; exact hok.1
    · exact ih hok.2 kv h2

theorem listNumOK_mem {L : Nat} :
    ∀ {xs : List JValue}, listNumOK L xs = true →
      ∀ x ∈ xs, numArraysOK L x = true := by
  intro xs
  induction xs with
  | nil => intro _ x h; simp at h
  | cons a t ih =>
    intro hok x hx
    rw [listNumOK, Bool.and_eq_true] at hok
    rcases List.mem_cons.mp hx with h1 | h2
    · rw [h1]; exact hok.1
    · exact ih hok.2 x h2

theorem numeric_len {L : Nat} {xs : List JValue}
    (hok : numArraysOK L (.arr xs) = true)
    (hnum : isNumericArray (.arr xs) = true) : xs.length = L := by
  rw [numArraysOK, Bool.and_eq_true] at hok
  have h1 := hok.1
  rw [hnum] at h1
  simpa using h1

theorem asNums_length (xs : List JValue) : (asNums (.arr xs)).length = xs.length := by
  simp [asNums]

theorem lookup_numeric_len {L : Nat} {fields : List (String × JValue)} {k : String}
    {v : JValue} (hok : entriesNumOK L fields = true)
    (hl : fields.lookup k = some v) (hnum : isNumericArray v = true) :
    (asNums v).length = L := by
  have hv := entriesNumOK_mem hok _ (lookup_mem hl)
  cases v with
  | arr xs => rw [asNums_length]; exact numeric_len hv hnum
  | num q => exact absurd hnum (by simp [isNumericArray])
  | str st => exact absurd hnum (by simp [isNumericArray])
  | bool b => exact absurd hnum (by simp [isNumericArray])
  | null => exact absurd hnum (by simp [isNumericArray])
  | obj fs => exact absurd hnum (by simp [isNumericArray])

theorem rootCtv_length {L : Nat} {j : JValue} (hok : numArraysOK L j = true) :
    ∀ {t : List ℚ}, rootCtv j = some t → t.length = L := by
  intro t ht
  cases j with
  | obj fields =>
    have hfs : entriesNumOK L fields = true := by
      rw [numArraysOK] at hok; exact hok
    simp only [rootCtv, jsGet, truthyOpt_and_numeric] at ht
    split_ifs at ht with h1 h2 h3
    · cases hl : fields.lookup "time" with
      | none => rw [hl] at h1; simp [isNumericArrayOpt] at h1
      | some v =>
        rw [hl] at h1 ht
        have hnum : isNumericArray v = true := by simpa [isNumericArrayOpt] using h1
        have hteq : t = asNums v := by simpa using ht.symm
        rw [hteq]
        exact lookup_numeric_len hfs hl hnum
    · cases hl : fields.lookup "tout" with
      | none => rw [hl] at h2; simp [isNumericArrayOpt] at h2
      | some v =>
        rw [hl] at h2 ht
        have hnum : isNumericArray v = true := by simpa [isNumericArrayOpt] using h2
        have hteq : t = asNums v := by simpa using ht.symm
        rw [hteq]
        exact lookup_numeric_len hfs hl hnum
    · cases hl : fields.lookup "t" with
      | none => rw [hl] at h3; simp [isNumericArrayOpt] at h3
      | some v =>
        rw [hl] at h3 ht
        have hnum : isNumericArray v = true := by simpa [isNumericArrayOpt] using h3
        have hteq : t = asNums v := by simpa using ht.symm
        rw [hteq]
        exact lookup_numeric_len hfs hl hnum
  | num q => simp [rootCtv, jsGet, jsTruthyOpt, isNumericArrayOpt] at ht
  | str st => simp [rootCtv, jsGet, jsTruthyOpt, isNumericArrayOpt] at ht
  | bool b => simp [rootCtv, jsGet, jsTruthyOpt, isNumericArrayOpt] at ht
  | null => simp [rootCtv, jsGet, jsTruthyOpt, isNumericArrayOpt] at ht
  | arr xs => simp [rootCtv, jsGet, jsTruthyOpt, isNumericArrayOpt] at ht

/-- C2 (amended): if every numeric sequence contained in the input has the
common length `L`, then every signal of the produced dataset (tree or flat
map) has `time`, when present, of the same length as `data`.  The normalizer
itself never checks lengths (see the counterexample), so the invariant is
conditional on the input. -/
theorem claim_C2_amended_time_length (L : Nat) (j : JValue) (fileName : String)
    (d : ParsedDataset) (hok : numArraysOK L j = true)
    (hp : parseMatlabJson j fileName = some d) :
    ∀ s ∈ allDatasetSignals d, sigTimeOk s = true := by
  have hnn : j ≠ JValue.null := fun he => by subst he; exact Option.noConfusion hp
  rw [parseMatlabJson_eq j fileName hnn, Option.some.injEq] at hp
  subst hp
  have hobj : ∀ fs, numArraysOK L (.obj fs) = true →
      ∀ kv ∈ fs, numArraysOK L kv.2 = true := by
    intro fs h kv hkv
    rw [numArraysOK] at h
    exact entriesNumOK_mem h kv hkv
  have harr : ∀ xs, numArraysOK L (.arr xs) = true →
      ∀ x ∈ xs, numArraysOK L x = true := by
    intro xs h x hx
    rw [numArraysOK, Bool.and_eq_true] at h
    exact listNumOK_mem h.2 x hx
  have hsig : ∀ path key value s, numArraysOK L value = true →
      entrySignal (rootCtv j) path key value = some s → sigTimeOk s = true := by
    intro path key value s hVv hes
    simp only [entrySignal] at hes
    by_cases h1 : isNumericArray value = true
    · by_cases h2 : ((key == "time" || key == "tout") && path == []) = true
      · rw [if_pos h1, if_pos h2] at hes
        exact Option.noConfusion hes
      · rw [if_pos h1, if_neg h2] at hes
        cases hes
        simp only [sigTimeOk]
        cases hct : rootCtv j with
        | none => rfl
        | some t =>
          have hlt : t.length = L := rootCtv_length hok hct
          cases value with
          | arr xs =>
            have hxl := numeric_len hVv h1
            simp [asNums_length, hlt, hxl]
          | num q => exact absurd h1 (by simp [isNumericArray])
          | str st => exact absurd h1 (by simp [isNumericArray])
          | bool b => exact absurd h1 (by simp [isNumericArray])
          | null => exact absurd h1 (by simp [isNumericArray])
          | obj fs => exact absurd h1 (by simp [isNumericArray])
    · by_cases h3 : (jsTruthy value && jsTypeofObject value &&
          isNumericArrayOpt (jsGet value "data") &&
          isNumericArrayOpt (jsGet value "time")) = true
      · rw [if_neg h1, if_pos h3] at hes
        simp only [Bool.and_eq_true] at h3
        have hdat := h3.1.2
        have htim := h3.2
        cases value with
        | obj fs =>
          have hfs : entriesNumOK L fs = true := by
            rw [numArraysOK] at hVv; exact hVv
          simp only [jsGet] at hdat htim hes
          cases hld : fs.lookup "data" with
          | none => rw [hld] at hdat; simp [isNumericArrayOpt] at hdat
          | some dv =>
            cases hlt : fs.lookup "time" with
            | none => rw [hlt] at htim; simp [isNumericArrayOpt] at htim
            | some tv =>
              rw [hld] at hdat hes
              rw [hlt] at htim hes
              have hnumd : isNumericArray dv = true := by
                simpa [isNumericArrayOpt] using hdat
              have hnumt : isNumericArray tv = true := by
                simpa [isNumericArrayOpt] using htim
              have e1 := lookup_numeric_len hfs hld hnumd
              have e2 := lookup_numeric_len hfs hlt hnumt
              cases hes
              simp only [sigTimeOk, Option.getD]
              rw [e1, e2]
              simp
        | num q => simp [jsGet, isNumericArrayOpt] at hdat
        | str st => simp [jsGet, isNumericArrayOpt] at hdat
        | bool b => simp [jsGet, isNumericArrayOpt] at hdat
        | null => simp [jsGet, isNumericArrayOpt] at hdat
        | arr xs => simp [jsGet, isNumericArrayOpt] at hdat
      · rw [if_neg h1, if_neg h3] at hes
        exact Option.noConfusion hes
  have H := traverse_signals_sound (rootCtv j) (numArraysOK L)
    (fun s => sigTimeOk s = true) hobj harr hsig (valSize j)
  intro s hs
  simp only [allDatasetSignals] at hs
  rcases List.mem_append.mp hs with h | h
  · exact (H.1 j [] fileName (le_refl _) hok).1 s h
  · obtain ⟨p, hp2, hps⟩ := List.mem_map.mp h
    rw [← hps]
    exact (H.1 j [] fileName (le_refl _) hok).2 p hp2

/-- C2 amended witness: the length-consistent input `c2good` (the spec's own
example) yields a dataset where every signal satisfies the time-length
invariant. -/
theorem claim_C2_amended_witness :
    numArraysOK 3 c2good = true ∧ (allDatasetSignals c2goodOut).all sigTimeOk = true := by
  have h := claim_C2_amended_time_length 3 c2good "f" c2goodOut rfl rfl
  refine ⟨rfl, ?_⟩
  rw [List.all_eq_true]
  intro s hs
  exact h s hs

end DataViz
